import Mathlib

/-!
Shallow embedding of `src/ortools_examples/linear/algorithms/producer_consumer.py`.

Conventions used throughout:
* Python `datetime` instants are modelled as integers (minutes since
  `datetime.min`); `timedelta(minutes=m)` is the integer `m`.  Python's `%`
  on positive divisors agrees with `Int.emod`.
* Python numbers entering the linear program (`required_units`,
  `max_supply`, prices, solution values) are modelled as rationals.
* Python string ids are modelled as `List Char`.
* Python `assert` failures are modelled as `Except.error` carrying a
  `ConfigurationError` (the spec's name for this failure class).
* The external LP solver is a black box: the model records exactly the
  variables and constraints the code registers, and result extraction is a
  function of an arbitrary assignment `VarKey → ℚ` returned by the solver.
-/

namespace ProducerConsumer

/-- Time instants, in minutes since `datetime.min` (the zero point Python's
`ceil_dt` measures from). -/
abbrev Time := Int

/-- Consumer: `id`, `required_units`, `departure_date` (class `Consumer`). -/
structure Consumer where
  id : List Char
  required_units : ℚ
  departure_date : Time
deriving DecidableEq

/-- Producer: `id` and per-block `max_supply` (class `Producer`; the
`building` back pointer plays no part in the algorithm). -/
structure Producer where
  id : List Char
  max_supply : ℚ
deriving DecidableEq

/-- Delivery: one consumer paired with one producer (class `Delivery`). -/
structure Delivery where
  consumer : Consumer
  producer : Producer
deriving DecidableEq

/-- The separator the delivery id format places between the consumer id and
the producer id: `", p-"`. -/
def sepChars : List Char := [',', ' ', 'p', '-']

/-- Delivery identifier `f"c-{consumer.id}, p-{producer.id}"` from
`Delivery.__init__`. -/
def deliveryId (cid pid : List Char) : List Char :=
  ['c', '-'] ++ cid ++ sepChars ++ pid

/-- The derived `id` attribute of a `Delivery`. -/
def Delivery.id (d : Delivery) : List Char :=
  deliveryId d.consumer.id d.producer.id

/-- UnitPrice rule (class `UnitPrice`): optional dates, optional block
number, and a price.  `None` becomes `Option.none`. -/
structure UnitPrice where
  date_from : Option Time
  date_until : Option Time
  block_number : Option Nat
  price : ℚ
deriving DecidableEq

/-- TimeBlock (class `TimeBlock`): number, half-open date interval and the
resolved price. -/
structure TimeBlock where
  number : Nat
  date_from : Time
  date_until : Time
  price : ℚ
deriving DecidableEq

/-- Python `TimeBlock.ceil_dt(dt, delta) = dt + (datetime.min - dt) % delta`;
with instants measured from `datetime.min`, `datetime.min - dt` is `-dt`, and
Python's `%` on a positive divisor is `Int.emod`. -/
def ceil_dt (dt : Time) (delta : Int) : Time :=
  dt + (0 - dt) % delta

/-- Price resolution of `get_price_for_date_or_number` inside
`TimeBlock.period_to_blocks`: scan the rules in order; a rule fires if its
`block_number` equals the block's number, or (`elif`) if it carries both
dates (Python truthiness: a `datetime` is always truthy) and
`date_from <= date < date_until`; return 0 when no rule fires. -/
def get_price_for_date_or_number (unit_prices : List UnitPrice)
    (date : Time) (number : Nat) : ℚ :=
  match unit_prices with
  | [] => 0
  | ep :: rest =>
    if ep.block_number = some number then ep.price
    else
      match ep.date_from, ep.date_until with
      | some df, some du =>
        if df ≤ date ∧ date < du then ep.price
        else get_price_for_date_or_number rest date number
      | some _, none => get_price_for_date_or_number rest date number
      | none, _ => get_price_for_date_or_number rest date number

/-- ConfigurationError: the spec's taxonomy for the code's `assert`
failures (`period_to_blocks` and `with_unit_price`). -/
inductive ConfigurationError where
  | nonPositiveBlocksPerHour
  | nonPositiveHours
  | missingBlockNumberOrDates
deriving DecidableEq

/-- `TimeBlock.period_to_blocks`: asserts both counts positive, computes
`minutes_per_block = int(60 / blocks_per_hour)` (floor, both positive),
aligns the start with `ceil_dt`, enumerates `total_blocks` block starts
spaced `minutes_per_block` apart (the `rrule(MINUTELY, ...)` call) and
builds one `TimeBlock` per start.  The Python result is a dict keyed by
`str(number)` in insertion order; it is modelled as the list indexed by
block number. -/
def period_to_blocks (blocks_per_hour hours : Int) (initial_date : Time)
    (unit_prices : List UnitPrice) : Except ConfigurationError (List TimeBlock) :=
  if blocks_per_hour ≤ 0 then .error .nonPositiveBlocksPerHour
  else if hours ≤ 0 then .error .nonPositiveHours
  else
    let total_blocks := (blocks_per_hour * hours).toNat
    let minutes_per_block : Int := 60 / blocks_per_hour
    let start_date := ceil_dt initial_date minutes_per_block
    .ok ((List.range total_blocks).map (fun number =>
      { number := number
        date_from := start_date + number * minutes_per_block
        date_until := start_date + number * minutes_per_block + minutes_per_block
        price := get_price_for_date_or_number unit_prices
          (start_date + number * minutes_per_block) number }))

/-- `ProducerConsumerAlgorithm.with_unit_price`: `assert block_number is
not None or (date_from and date_until)`, then append the rule. -/
def with_unit_price (unit_prices : List UnitPrice)
    (date_from date_until : Option Time) (block_number : Option Nat)
    (price : ℚ) : Except ConfigurationError (List UnitPrice) :=
  if block_number.isSome ∨ (date_from.isSome ∧ date_until.isSome) then
    .ok (unit_prices ++ [{ date_from := date_from, date_until := date_until,
                           block_number := block_number, price := price }])
  else .error .missingBlockNumberOrDates

/-- Key of a decision variable: the solver variable named
`f"{delivery.id}-{time_block.number}"` in `solve`, identified here by the
pair it is created for. -/
structure VarKey where
  delivery_id : List Char
  block_number : Nat
deriving DecidableEq

/-- A variable as registered with the solver: its key, the bounds passed to
`NumVar` (`none` = `solver.infinity()`), and the objective coefficient set
right after creation. -/
structure LPVar where
  key : VarKey
  lb : ℚ
  ub : Option ℚ
  objCoeff : ℚ
deriving DecidableEq

/-- A linear constraint as registered with the solver: bounds and the list
of variables given coefficient 1 (`SetCoefficient(variable, 1)` is the only
coefficient the code ever sets on a constraint). -/
structure LPConstraint where
  lb : ℚ
  ub : ℚ
  terms : List VarKey
deriving DecidableEq

/-- Feasible block numbers of a delivery: the loop
`for block_number in range(0, len(time_blocks))` keeps exactly those whose
block satisfies `time_block.date_until <= delivery.consumer.departure_date`.
Blocks are looked up by `str(block_number)`, i.e. by list index. -/
def feasibleBlocks (time_blocks : List TimeBlock) (d : Delivery) : List Nat :=
  (List.range time_blocks.length).filter (fun number =>
    match time_blocks[number]? with
    | some tb => decide (tb.date_until ≤ d.consumer.departure_date)
    | none => false)

/-- The variables `solve` creates: for each delivery (in dict order) and
each feasible block, `NumVar(0.0, infinity, ...)` with objective
coefficient `time_block.price`. -/
def buildVariables (deliveries : List Delivery) (time_blocks : List TimeBlock) :
    List LPVar :=
  deliveries.flatMap (fun d =>
    (feasibleBlocks time_blocks d).map (fun number =>
      { key := { delivery_id := d.id, block_number := number }
        lb := 0
        ub := none
        objCoeff :=
          match time_blocks[number]? with
          | some tb => tb.price
          | none => 0 }))

/-- The consumer-side constraints `solve` registers.  The loop runs once
per delivery; each iteration creates a fresh solver constraint with bounds
`(consumer.required_units, consumer.required_units)`, stores it in
`consumer_constraints[consumer.id]` (overwriting any previous entry for the
same consumer — the earlier constraint nevertheless stays in the solver's
model) and then puts coefficient 1 on exactly this delivery's variables.
Hence the solver ends up with one equality constraint per delivery. -/
def consumerConstraints (deliveries : List Delivery)
    (time_blocks : List TimeBlock) : List LPConstraint :=
  deliveries.map (fun d =>
    { lb := d.consumer.required_units
      ub := d.consumer.required_units
      terms := (feasibleBlocks time_blocks d).map
        (fun number => { delivery_id := d.id, block_number := number }) })

/-- `ProducerConsumerAlgorithm._get_producers()`: the set of producer
objects of the deliveries.  Python deduplicates set members by object
identity (hash is `hash(id)`); with one object per producer id — the
documented setup — this is structural deduplication.  A Python `set`
iterates in unspecified order; the theorems below never depend on the
order of this list. -/
def producersOf (deliveries : List Delivery) : List Producer :=
  (deliveries.map Delivery.producer).dedup

/-- The capacity constraint `solve` registers for one producer and one
block: bounds `(0, pr.max_supply)`, and coefficient 1 on the variable of
every delivery (in dict order) with `pr.id == delivery.producer.id` that
has a variable for this block. -/
def producerConstraint (deliveries : List Delivery)
    (time_blocks : List TimeBlock) (pr : Producer) (block_number : Nat) :
    LPConstraint :=
  { lb := 0
    ub := pr.max_supply
    terms := deliveries.filterMap (fun d =>
      if pr.id = d.producer.id ∧ block_number ∈ feasibleBlocks time_blocks d
      then some { delivery_id := d.id, block_number := block_number }
      else none) }

/-- All capacity constraints: one per producer in `_get_producers()` and
per block number in `range(0, len(time_blocks))`. -/
def producerConstraints (deliveries : List Delivery)
    (time_blocks : List TimeBlock) : List LPConstraint :=
  (producersOf deliveries).flatMap (fun pr =>
    (List.range time_blocks.length).map
      (producerConstraint deliveries time_blocks pr))

/-- Every constraint `solve` registers with the solver. -/
def allConstraints (deliveries : List Delivery)
    (time_blocks : List TimeBlock) : List LPConstraint :=
  consumerConstraints deliveries time_blocks ++
    producerConstraints deliveries time_blocks

/-- Solver status values of `pywraplp` consulted by `Schedule.__init__`. -/
inductive SolverStatus where
  | OPTIMAL
  | FEASIBLE
  | INFEASIBLE
  | UNBOUNDED
  | ABNORMAL
  | NOT_SOLVED
deriving DecidableEq

/-- One entry of `Schedule.deliveries`: the dict appended per positive
variable value. -/
structure DeliveryRecord where
  time_block : Nat
  producer : List Char
  consumer : List Char
  units_to_supply : ℚ
  unit_price : ℚ
deriving DecidableEq

/-- The `Schedule` object: `solved` flag, `result` message, `total_price`
and the list of delivery records. -/
structure Schedule where
  solved : Bool
  result : String
  total_price : ℚ
  deliveries : List DeliveryRecord
deriving DecidableEq

def optimalMessage : String := "Optimal solution found"

def feasibleMessage : String := "A potentially suboptimal solution was found."

def unsolvedMessage : String := "The solver could not solve the problem."

/-- The (delivery, block) pairs underlying `algorithm.variables`, in
iteration order: deliveries in dict order, then that delivery's variable
dict in insertion order, which is ascending block number. -/
def varPairs (deliveries : List Delivery) (time_blocks : List TimeBlock) :
    List (Delivery × Nat) :=
  deliveries.flatMap (fun d =>
    (feasibleBlocks time_blocks d).map (fun number => (d, number)))

/-- Body of the extraction loop in `Schedule.__init__` for one variable:
read `value`, and if it is strictly positive look the block up by
`str(time_block)`, add `value * block.price` to the running total and
append the record. -/
def extractStep (time_blocks : List TimeBlock) (value : VarKey → ℚ)
    (acc : ℚ × List DeliveryRecord) (d : Delivery) (number : Nat) :
    ℚ × List DeliveryRecord :=
  let v := value { delivery_id := d.id, block_number := number }
  if 0 < v then
    match time_blocks[number]? with
    | some block =>
      (acc.1 + v * block.price,
       acc.2 ++ [{ time_block := number
                   producer := d.producer.id
                   consumer := d.consumer.id
                   units_to_supply := v
                   unit_price := block.price }])
    | none => acc
  else acc

/-- The full extraction loop: fold `extractStep` over all variables,
starting from `total_price = 0.0` and an empty record list. -/
def extractDeliveries (deliveries : List Delivery)
    (time_blocks : List TimeBlock) (value : VarKey → ℚ) :
    ℚ × List DeliveryRecord :=
  (varPairs deliveries time_blocks).foldl
    (fun acc p => extractStep time_blocks value acc p.1 p.2) (0, [])

/-- `Schedule.__init__`: set `solved` from the status, pick the result
message, and run extraction only when solved (otherwise `total_price`
stays `0.0` and `deliveries` stays empty). -/
def schedule_init (status : SolverStatus) (deliveries : List Delivery)
    (time_blocks : List TimeBlock) (value : VarKey → ℚ) : Schedule :=
  let solved : Bool := status == .OPTIMAL || status == .FEASIBLE
  let result : String :=
    if status == .OPTIMAL then optimalMessage
    else if status == .FEASIBLE then feasibleMessage
    else unsolvedMessage
  if solved then
    let te := extractDeliveries deliveries time_blocks value
    { solved := solved, result := result, total_price := te.1,
      deliveries := te.2 }
  else
    { solved := solved, result := result, total_price := 0, deliveries := [] }

/-- Stable insertion used to model the `sorted(self.deliveries,
key=lambda k: k['time_block'])` call in `Schedule.print`: a record is
placed after every already-placed record whose block number is less than
or equal to its own.  Python's `sorted` is a stable sort by the same key,
and a stable sort by a key is uniquely determined, so this insertion sort
computes exactly the printed order. -/
def insertByBlock (r : DeliveryRecord) : List DeliveryRecord → List DeliveryRecord
  | [] => [r]
  | s :: rest =>
    if s.time_block ≤ r.time_block then s :: insertByBlock r rest
    else r :: s :: rest

/-- The order in which `Schedule.print` renders the records. -/
def sortByBlock (records : List DeliveryRecord) : List DeliveryRecord :=
  records.foldl (fun acc r => insertByBlock r acc) []

/-- Python dict insert on the `deliveries` dict of the algorithm: replace
in place when the key is present, append otherwise. -/
def dictInsert (m : List (List Char × Delivery)) (k : List Char)
    (v : Delivery) : List (List Char × Delivery) :=
  if m.any (fun p => p.1 == k) then
    m.map (fun p => if p.1 == k then (k, v) else p)
  else m ++ [(k, v)]

/-- `ProducerConsumerAlgorithm.with_delivery`: build the `Delivery` and
store it under its derived id in the id-keyed dict. -/
def with_delivery (deliveries : List (List Char × Delivery))
    (consumer : Consumer) (producer : Producer) :
    List (List Char × Delivery) :=
  let d : Delivery := { consumer := consumer, producer := producer }
  dictInsert deliveries d.id d

/-- Spec-side matching predicate for one price rule, following §4.1 of the
spec: the rule fires on explicit block-number equality, or, when it has
both dates, on end-exclusive interval containment of the block start. -/
def ruleMatches (ep : UnitPrice) (date : Time) (number : Nat) : Bool :=
  ep.block_number == some number ||
    (match ep.date_from, ep.date_until with
     | some df, some du => decide (df ≤ date ∧ date < du)
     | _, _ => false)

/-- Spec-side description of what the extraction loop does with one
(delivery, block) variable: keep it exactly when its solution value is
strictly positive, decoding it into a record that carries the block's
price. -/
def recordOf (time_blocks : List TimeBlock) (value : VarKey → ℚ)
    (p : Delivery × Nat) : Option DeliveryRecord :=
  let v := value { delivery_id := p.1.id, block_number := p.2 }
  if 0 < v then
    match time_blocks[p.2]? with
    | some block =>
      some { time_block := p.2
             producer := p.1.producer.id
             consumer := p.1.consumer.id
             units_to_supply := v
             unit_price := block.price }
    | none => none
  else none

/-- Bool test: does the string start with the given pattern. -/
def startsWith : List Char → List Char → Bool
  | [], _ => true
  | _ :: _, [] => false
  | p :: ps, c :: cs => p == c && startsWith ps cs

/-- Bool test: does the string contain the given pattern as a contiguous
subsequence. -/
def hasSeq (pat : List Char) : List Char → Bool
  | [] => startsWith pat []
  | c :: cs => startsWith pat (c :: cs) || hasSeq pat cs

/-- Split a string at the first occurrence of the pattern: the part before
it and the part after it. -/
def splitAtSeq (pat : List Char) : List Char → Option (List Char × List Char)
  | [] => if startsWith pat [] then some ([], []) else none
  | c :: cs =>
    if startsWith pat (c :: cs) then some ([], (c :: cs).drop pat.length)
    else (splitAtSeq pat cs).map (fun q => (c :: q.1, q.2))

/-- C7: for every time block and every list of price rules, the resolved
price is the price of the first rule in registration order that matches —
by explicit block-number equality, or, when the rule has both dates, by
end-exclusive containment `date_from ≤ block_start < date_until` — and 0
when no rule matches. -/
theorem price_resolution_first_match (unit_prices : List UnitPrice)
    (date : Time) (number : Nat) :
    get_price_for_date_or_number unit_prices date number =
      ((unit_prices.find? (fun ep => ruleMatches ep date number)).map
        UnitPrice.price).getD 0 := by
  induction unit_prices with
  | nil => rfl
  | cons ep rest ih =>
    by_cases hbn : ep.block_number = some number
    · have hm : ruleMatches ep date number = true := by
        simp [ruleMatches, hbn]
      simp [get_price_for_date_or_number, List.find?, hm, hbn]
    · rcases hdf : ep.date_from with _ | df <;> rcases hdu : ep.date_until with _ | du
      · have hm : ruleMatches ep date number = false := by
          simp [ruleMatches, hbn, hdf, hdu]
        simp [get_price_for_date_or_number, List.find?, hm, hbn, hdf, hdu, ih]
      · have hm : ruleMatches ep date number = false := by
          simp [ruleMatches, hbn, hdf, hdu]
        simp [get_price_for_date_or_number, List.find?, hm, hbn, hdf, hdu, ih]
      · have hm : ruleMatches ep date number = false := by
          simp [ruleMatches, hbn, hdf, hdu]
        simp [get_price_for_date_or_number, List.find?, hm, hbn, hdf, hdu, ih]
      · by_cases hin : df ≤ date ∧ date < du
        · have hm : ruleMatches ep date number = true := by
            simp [ruleMatches, hdf, hdu, hin]
          simp [get_price_for_date_or_number, List.find?, hm, hbn, hdf, hdu, hin]
        · have hm : ruleMatches ep date number = false := by
            simp [ruleMatches, hbn, hdf, hdu, hin]
          simp [get_price_for_date_or_number, List.find?, hm, hbn, hdf, hdu, hin, ih]

/-- C9: non-positive `blocks_per_hour` or `hours` makes block construction
fail with a `ConfigurationError` and no blocks; a price rule carrying
neither a block number nor both dates makes registration fail with a
`ConfigurationError` and the rule list unchanged. -/
theorem configuration_error_rejection (blocks_per_hour hours : Int)
    (initial_date : Time) (unit_prices : List UnitPrice)
    (date_from date_until : Option Time) (block_number : Option Nat)
    (price : ℚ)
    (hcounts : blocks_per_hour ≤ 0 ∨ hours ≤ 0)
    (hbn : block_number = none)
    (hdates : date_from = none ∨ date_until = none) :
    (∃ e, period_to_blocks blocks_per_hour hours initial_date unit_prices =
        .error e) ∧
    with_unit_price unit_prices date_from date_until block_number price =
      .error .missingBlockNumberOrDates := by
  constructor
  · rcases hcounts with h | h
    · exact ⟨.nonPositiveBlocksPerHour, by simp [period_to_blocks, h]⟩
    · by_cases hb : blocks_per_hour ≤ 0
      · exact ⟨.nonPositiveBlocksPerHour, by simp [period_to_blocks, hb]⟩
      · exact ⟨.nonPositiveHours, by simp [period_to_blocks, hb, h]⟩
  · rcases hdates with h | h <;>
      simp [with_unit_price, hbn, h]

/-- Witness for `configuration_error_rejection` at a concrete input. -/
theorem configuration_error_rejection_witness :
    ((0 : Int) ≤ 0 ∨ (24 : Int) ≤ 0) ∧
    (∃ e, period_to_blocks 0 24 0 [] = .error e) ∧
    with_unit_price [] none none none 5 =
      .error .missingBlockNumberOrDates :=
  ⟨Or.inl le_rfl,
    configuration_error_rejection 0 24 0 [] none none none 5
      (Or.inl le_rfl) rfl (Or.inl rfl)⟩

/-- C6: `solved` is true exactly for OPTIMAL and FEASIBLE, the result
message takes one of three pairwise distinct values picking out optimal /
suboptimal-feasible / unsolved, and an unsolved status yields total price
0, an empty delivery list, and a schedule that never reads a variable
value (it is the same for every assignment); construction is total, so an
infeasible solve still returns a `Schedule`. -/
theorem schedule_status_decoding (status : SolverStatus)
    (deliveries : List Delivery) (time_blocks : List TimeBlock)
    (value value' : VarKey → ℚ) :
    ((schedule_init status deliveries time_blocks value).solved = true ↔
      status = .OPTIMAL ∨ status = .FEASIBLE) ∧
    ((schedule_init status deliveries time_blocks value).result =
      if status = .OPTIMAL then optimalMessage
      else if status = .FEASIBLE then feasibleMessage
      else unsolvedMessage) ∧
    (optimalMessage ≠ feasibleMessage ∧ optimalMessage ≠ unsolvedMessage ∧
      feasibleMessage ≠ unsolvedMessage) ∧
    ((schedule_init status deliveries time_blocks value).solved = false →
      (schedule_init status deliveries time_blocks value).total_price = 0 ∧
      (schedule_init status deliveries time_blocks value).deliveries = [] ∧
      schedule_init status deliveries time_blocks value =
        schedule_init status deliveries time_blocks value') := by
  refine ⟨?_, ?_, ⟨by decide, by decide, by decide⟩, ?_⟩
  · cases status <;> simp [schedule_init]
  · cases status <;> simp [schedule_init]
  · cases status <;> simp [schedule_init]

/-- Witness for `schedule_status_decoding` at a concrete unsolved status. -/
theorem schedule_status_decoding_witness :
    ((schedule_init .INFEASIBLE [] [] (fun _ => 1)).solved = true ↔
      SolverStatus.INFEASIBLE = .OPTIMAL ∨
        SolverStatus.INFEASIBLE = .FEASIBLE) ∧
    (schedule_init .INFEASIBLE [] [] (fun _ => 1)).total_price = 0 ∧
    (schedule_init .INFEASIBLE [] [] (fun _ => 1)).deliveries = [] ∧
    schedule_init .INFEASIBLE [] [] (fun _ => 1) =
      schedule_init .INFEASIBLE [] [] (fun _ => 2) := by
  have h := schedule_status_decoding .INFEASIBLE [] [] (fun _ => 1) (fun _ => 2)
  have hub := h.2.2.2 (by rfl)
  exact ⟨h.1, hub.1, hub.2.1, hub.2.2⟩

/-- The extraction fold both appends exactly the records `recordOf` keeps
and accumulates exactly the sum of `units_to_supply * unit_price` over
them. -/
theorem extract_foldl_spec (time_blocks : List TimeBlock)
    (value : VarKey → ℚ) :
    ∀ (ps : List (Delivery × Nat)) (acc : ℚ × List DeliveryRecord),
    ps.foldl (fun acc p => extractStep time_blocks value acc p.1 p.2) acc =
      (acc.1 + ((ps.filterMap (recordOf time_blocks value)).map
          (fun r => r.units_to_supply * r.unit_price)).sum,
       acc.2 ++ ps.filterMap (recordOf time_blocks value)) := by
  intro ps
  induction ps with
  | nil => intro acc; simp
  | cons p rest ih =>
    intro acc
    rw [List.foldl_cons, ih]
    by_cases hv : 0 < value { delivery_id := p.1.id, block_number := p.2 }
    · cases hb : time_blocks[p.2]? with
      | some block =>
        simp [extractStep, recordOf, hv, hb, add_assoc]
      | none =>
        simp [extractStep, recordOf, hv, hb]
    · simp [extractStep, recordOf, hv]

/-- Membership in `feasibleBlocks`: a block number is kept exactly when it
indexes a block of the collection whose end does not exceed the delivery's
consumer's departure date. -/
theorem mem_feasibleBlocks (time_blocks : List TimeBlock) (d : Delivery)
    (n : Nat) :
    n ∈ feasibleBlocks time_blocks d ↔
      ∃ tb, time_blocks[n]? = some tb ∧
        tb.date_until ≤ d.consumer.departure_date := by
  simp only [feasibleBlocks, List.mem_filter, List.mem_range]
  constructor
  · rintro ⟨hn, hp⟩
    cases hb : time_blocks[n]? with
    | some tb =>
      refine ⟨tb, rfl, ?_⟩
      rw [hb] at hp
      exact of_decide_eq_true hp
    | none => rw [hb] at hp; cases hp
  · rintro ⟨tb, hb, hle⟩
    have hn : n < time_blocks.length := by
      by_contra hge
      rw [List.getElem?_eq_none (by omega)] at hb
      cases hb
    exact ⟨hn, by rw [hb]; exact decide_eq_true hle⟩

/-- C5: for a schedule built from a solved status, the delivery records
are exactly the (delivery, block) variables with strictly positive
solution value (in iteration order, zero-valued variables omitted), each
variable of the model is kept precisely when its value is positive, and
`total_price` is exactly the sum of `units_to_supply * unit_price` over
the records. -/
theorem schedule_extraction_exact (status : SolverStatus)
    (deliveries : List Delivery) (time_blocks : List TimeBlock)
    (value : VarKey → ℚ)
    (hsolved : status = .OPTIMAL ∨ status = .FEASIBLE) :
    (schedule_init status deliveries time_blocks value).deliveries =
      (varPairs deliveries time_blocks).filterMap
        (recordOf time_blocks value) ∧
    (∀ p ∈ varPairs deliveries time_blocks,
      (recordOf time_blocks value p).isSome = true ↔
        0 < value { delivery_id := p.1.id, block_number := p.2 }) ∧
    (schedule_init status deliveries time_blocks value).total_price =
      (((schedule_init status deliveries time_blocks value).deliveries).map
        (fun r => r.units_to_supply * r.unit_price)).sum := by
  have hsol : (status == SolverStatus.OPTIMAL ||
      status == SolverStatus.FEASIBLE) = true := by
    rcases hsolved with h | h <;> simp [h]
  have hfold := extract_foldl_spec time_blocks value
    (varPairs deliveries time_blocks) (0, [])
  have hsched : schedule_init status deliveries time_blocks value =
      { solved := true,
        result := if status == SolverStatus.OPTIMAL then optimalMessage
          else if status == SolverStatus.FEASIBLE then feasibleMessage
          else unsolvedMessage,
        total_price := (extractDeliveries deliveries time_blocks value).1,
        deliveries := (extractDeliveries deliveries time_blocks value).2 } := by
    rw [schedule_init]
    simp only [hsol, if_true]
  refine ⟨?_, ?_, ?_⟩
  · rw [hsched]
    simp only [extractDeliveries, hfold]
    simp
  · intro p hp
    have hlt : p.2 < time_blocks.length := by
      rcases List.mem_flatMap.mp hp with ⟨d, _, hmem⟩
      rcases List.mem_map.mp hmem with ⟨n, hn, hpn⟩
      subst hpn
      rcases (mem_feasibleBlocks time_blocks d n).mp hn with ⟨tb, hb, _⟩
      exact (List.getElem?_eq_some.mp hb).1
    constructor
    · intro hsome
      by_contra hnpos
      simp [recordOf, hnpos] at hsome
    · intro hpos
      have hb : ∃ tb, time_blocks[p.2]? = some tb :=
        ⟨time_blocks[p.2], List.getElem?_eq_getElem hlt⟩
      rcases hb with ⟨tb, hb⟩
      simp [recordOf, hpos, hb]
  · rw [hsched]
    simp only [extractDeliveries, hfold]
    simp

/-- Witness for `schedule_extraction_exact`: one delivery, two blocks, one
positive and one zero variable value. -/
theorem schedule_extraction_exact_witness :
    (SolverStatus.OPTIMAL = SolverStatus.OPTIMAL ∨
      SolverStatus.OPTIMAL = SolverStatus.FEASIBLE) ∧
    ((schedule_init .OPTIMAL [⟨⟨['c'], 4, 120⟩, ⟨['p'], 1⟩⟩]
        [⟨0, 0, 15, 2⟩, ⟨1, 15, 30, 3⟩]
        (fun k => if k.block_number = 0 then 4 else 0)).total_price =
      (((schedule_init .OPTIMAL [⟨⟨['c'], 4, 120⟩, ⟨['p'], 1⟩⟩]
        [⟨0, 0, 15, 2⟩, ⟨1, 15, 30, 3⟩]
        (fun k => if k.block_number = 0 then 4 else 0)).deliveries).map
          (fun r => r.units_to_supply * r.unit_price)).sum) :=
  ⟨Or.inl rfl,
    (schedule_extraction_exact .OPTIMAL [⟨⟨['c'], 4, 120⟩, ⟨['p'], 1⟩⟩]
      [⟨0, 0, 15, 2⟩, ⟨1, 15, 30, 3⟩]
      (fun k => if k.block_number = 0 then 4 else 0) (Or.inl rfl)).2.2⟩

/-- Membership in the variable key list of the built model. -/
theorem mem_varKeys (deliveries : List Delivery) (time_blocks : List TimeBlock)
    (k : VarKey) :
    k ∈ (buildVariables deliveries time_blocks).map LPVar.key ↔
      ∃ d ∈ deliveries, ∃ n ∈ feasibleBlocks time_blocks d,
        k = { delivery_id := d.id, block_number := n } := by
  constructor
  · intro hk
    rcases List.mem_map.mp hk with ⟨v, hv, hkey⟩
    rcases List.mem_flatMap.mp hv with ⟨d, hd, hmem⟩
    rcases List.mem_map.mp hmem with ⟨n, hn, hvn⟩
    exact ⟨d, hd, n, hn, by rw [← hkey, ← hvn]⟩
  · rintro ⟨d, hd, n, hn, rfl⟩
    refine List.mem_map.mpr ⟨_, List.mem_flatMap.mpr ⟨d, hd,
      List.mem_map.mpr ⟨n, hn, rfl⟩⟩, rfl⟩

/-- Membership in the (delivery, block) pairs underlying the variable
dicts. -/
theorem mem_varPairs (deliveries : List Delivery) (time_blocks : List TimeBlock)
    (p : Delivery × Nat) :
    p ∈ varPairs deliveries time_blocks ↔
      p.1 ∈ deliveries ∧ p.2 ∈ feasibleBlocks time_blocks p.1 := by
  rcases p with ⟨d, n⟩
  constructor
  · intro hp
    rcases List.mem_flatMap.mp hp with ⟨a, ha, hmem⟩
    rcases List.mem_map.mp hmem with ⟨m, hm, hma⟩
    have h1 : a = d := congrArg Prod.fst hma
    have h2 : m = n := congrArg Prod.snd hma
    subst h1
    subst h2
    exact ⟨ha, hm⟩
  · rintro ⟨hd, hn⟩
    exact List.mem_flatMap.mpr ⟨d, hd, List.mem_map.mpr ⟨n, hn, rfl⟩⟩

/-- The delivery-record list of a solved schedule, via the extraction
fold. -/
theorem schedule_deliveries_solved (status : SolverStatus)
    (deliveries : List Delivery) (time_blocks : List TimeBlock)
    (value : VarKey → ℚ)
    (hsol : (status == SolverStatus.OPTIMAL ||
      status == SolverStatus.FEASIBLE) = true) :
    (schedule_init status deliveries time_blocks value).deliveries =
      (varPairs deliveries time_blocks).filterMap
        (recordOf time_blocks value) := by
  rw [schedule_init]
  simp only [hsol, if_true]
  rw [extractDeliveries, extract_foldl_spec]
  simp

/-- C2: a decision variable exists for a (delivery, block) pair exactly
when the block exists and its end is at most the delivery's consumer's
departure date; consequently every record of any schedule refers to a
delivery of the model and to a block whose end is at most that delivery's
consumer's departure date. -/
theorem deadline_feasibility_pruning (deliveries : List Delivery)
    (time_blocks : List TimeBlock)
    (hnd : (deliveries.map Delivery.id).Nodup) :
    (∀ d ∈ deliveries, ∀ n : Nat,
      (({ delivery_id := d.id, block_number := n } : VarKey) ∈
          (buildVariables deliveries time_blocks).map LPVar.key ↔
        ∃ tb, time_blocks[n]? = some tb ∧
          tb.date_until ≤ d.consumer.departure_date)) ∧
    (∀ (status : SolverStatus) (value : VarKey → ℚ) (r : DeliveryRecord),
      r ∈ (schedule_init status deliveries time_blocks value).deliveries →
      ∃ d ∈ deliveries, r.producer = d.producer.id ∧
        r.consumer = d.consumer.id ∧
        ∃ tb, time_blocks[r.time_block]? = some tb ∧
          tb.date_until ≤ d.consumer.departure_date) := by
  constructor
  · intro d hd n
    constructor
    · intro hmem
      rcases (mem_varKeys deliveries time_blocks _).mp hmem with
        ⟨d', hd', n', hn', hkey⟩
      have h1 : d.id = d'.id := congrArg VarKey.delivery_id hkey
      have h2 : n = n' := congrArg VarKey.block_number hkey
      have hdd : d = d' := List.inj_on_of_nodup_map hnd hd hd' h1
      subst hdd
      subst h2
      exact (mem_feasibleBlocks time_blocks d n).mp hn'
    · rintro ⟨tb, hb, hle⟩
      exact (mem_varKeys deliveries time_blocks _).mpr
        ⟨d, hd, n, (mem_feasibleBlocks time_blocks d n).mpr ⟨tb, hb, hle⟩, rfl⟩
  · intro status value r hr
    rcases hsol : (status == SolverStatus.OPTIMAL ||
        status == SolverStatus.FEASIBLE) with _ | _
    · rw [schedule_init] at hr
      simp only [hsol, Bool.false_eq_true, if_false] at hr
      simp at hr
    · rw [schedule_deliveries_solved status deliveries time_blocks value hsol]
        at hr
      rcases List.mem_filterMap.mp hr with ⟨p, hp, hrec⟩
      rcases p with ⟨d, n⟩
      rcases (mem_varPairs deliveries time_blocks _).mp hp with ⟨hd, hn⟩
      rcases (mem_feasibleBlocks time_blocks d n).mp hn with ⟨tb, hb, hle⟩
      by_cases hv : 0 < value { delivery_id := d.id, block_number := n }
      · rw [recordOf] at hrec
        simp only [hv, if_true, hb] at hrec
        have hrec2 := Option.some.inj hrec
        rw [← hrec2]
        exact ⟨d, hd, rfl, rfl, tb, hb, hle⟩
      · rw [recordOf] at hrec
        simp only [hv, if_false] at hrec
        cases hrec

/-- Witness for `deadline_feasibility_pruning` on a concrete model:
one delivery, two blocks of which only the first is feasible. -/
theorem deadline_feasibility_pruning_witness :
    (([⟨⟨['c'], 4, 20⟩, ⟨['p'], 1⟩⟩] : List Delivery).map
      Delivery.id).Nodup ∧
    (({ delivery_id := (⟨⟨['c'], 4, 20⟩, ⟨['p'], 1⟩⟩ : Delivery).id,
        block_number := 0 } : VarKey) ∈
      (buildVariables [⟨⟨['c'], 4, 20⟩, ⟨['p'], 1⟩⟩]
        [⟨0, 0, 15, 2⟩, ⟨1, 15, 30, 3⟩]).map LPVar.key ↔
      ∃ tb, ([⟨0, 0, 15, 2⟩, ⟨1, 15, 30, 3⟩] : List TimeBlock)[(0 : Nat)]? =
          some tb ∧ tb.date_until ≤ 20) :=
  ⟨by decide,
    ((deadline_feasibility_pruning [⟨⟨['c'], 4, 20⟩, ⟨['p'], 1⟩⟩]
      [⟨0, 0, 15, 2⟩, ⟨1, 15, 30, 3⟩] (by decide)).1
      ⟨⟨['c'], 4, 20⟩, ⟨['p'], 1⟩⟩ (by decide) 0)⟩

/-- Length of a flatMap producing one block of `n` items per element. -/
theorem flatMap_range_map_length {α β : Type} (l : List α) (n : Nat)
    (f : α → Nat → β) :
    (l.flatMap (fun a => (List.range n).map (f a))).length = l.length * n := by
  induction l with
  | nil => simp
  | cons a t ih =>
    rw [List.flatMap_cons, List.length_append, List.length_map,
      List.length_range, ih, List.length_cons, Nat.succ_mul]
    omega

/-- Indexing a flatMap producing one block of `n` items per element:
position `i * n + j` holds the `j`-th item of the `i`-th element. -/
theorem flatMap_range_map_getElem {α β : Type} (l : List α) (n : Nat)
    (f : α → Nat → β) (i j : Nat) (hi : i < l.length) (hj : j < n) :
    (l.flatMap (fun a => (List.range n).map (f a)))[i * n + j]? =
      (l[i]?).map (fun a => f a j) := by
  induction l generalizing i with
  | nil => cases hi
  | cons a t ih =>
    rw [List.flatMap_cons]
    cases i with
    | zero =>
      have hj' : (0 : Nat) * n + j < (List.map (f a) (List.range n)).length := by
        simp [hj]
      rw [List.getElem?_append, if_pos hj']
      simp [List.getElem?_map, List.getElem?_range, hj]
    | succ i' =>
      have hge : (List.map (f a) (List.range n)).length ≤ i'.succ * n + j := by
        simp [Nat.succ_mul]
        omega
      rw [List.getElem?_append, if_neg (not_lt.mpr hge)]
      have hi' : i' < t.length := by
        simp at hi
        omega
      have hidx : i'.succ * n + j - (List.map (f a) (List.range n)).length =
          i' * n + j := by
        simp [Nat.succ_mul]
        omega
      rw [hidx, ih i' hi']
      simp

/-- C3: every variable of the model has lower bound 0 and upper bound
infinity; the capacity constraints are exactly one per (producer, block)
pair — the list has one entry per pair, and the entry of producer `i` and
block `j` sits at position `i * len + j` — and each such constraint has
bounds `[0, max_supply]` and carries exactly the existing variables of
that single block whose delivery's producer is that producer. -/
theorem producer_capacity_constraints (deliveries : List Delivery)
    (time_blocks : List TimeBlock)
    (hnd : (deliveries.map Delivery.id).Nodup) :
    (∀ v ∈ buildVariables deliveries time_blocks, v.lb = 0 ∧ v.ub = none) ∧
    (producerConstraints deliveries time_blocks).length =
      (producersOf deliveries).length * time_blocks.length ∧
    (∀ i j, i < (producersOf deliveries).length → j < time_blocks.length →
      (producerConstraints deliveries time_blocks)[i * time_blocks.length + j]? =
        ((producersOf deliveries)[i]?).map
          (fun pr => producerConstraint deliveries time_blocks pr j)) ∧
    (∀ pr bn,
      (producerConstraint deliveries time_blocks pr bn).lb = 0 ∧
      (producerConstraint deliveries time_blocks pr bn).ub = pr.max_supply ∧
      (∀ k, k ∈ (producerConstraint deliveries time_blocks pr bn).terms ↔
        k.block_number = bn ∧
        k ∈ (buildVariables deliveries time_blocks).map LPVar.key ∧
        ∃ d ∈ deliveries, k.delivery_id = d.id ∧ pr.id = d.producer.id)) := by
  refine ⟨?_, ?_, ?_, ?_⟩
  · intro v hv
    rcases List.mem_flatMap.mp hv with ⟨d, hd, hmem⟩
    rcases List.mem_map.mp hmem with ⟨m, hm, hvm⟩
    rw [← hvm]
    exact ⟨rfl, rfl⟩
  · exact flatMap_range_map_length _ _ _
  · intro i j hi hj
    exact flatMap_range_map_getElem _ _ _ i j hi hj
  · intro pr bn
    refine ⟨rfl, rfl, ?_⟩
    intro k
    constructor
    · intro hk
      rcases List.mem_filterMap.mp hk with ⟨d, hd, hfd⟩
      by_cases hc : pr.id = d.producer.id ∧
          bn ∈ feasibleBlocks time_blocks d
      · rw [if_pos hc] at hfd
        have hkey := Option.some.inj hfd
        rw [← hkey]
        exact ⟨rfl,
          (mem_varKeys deliveries time_blocks _).mpr ⟨d, hd, bn, hc.2, rfl⟩,
          d, hd, rfl, hc.1⟩
      · rw [if_neg hc] at hfd
        cases hfd
    · rintro ⟨hbn, hvar, d, hd, hdid, hprid⟩
      rcases (mem_varKeys deliveries time_blocks _).mp hvar with
        ⟨d', hd', n', hn', hkey⟩
      have hid : k.delivery_id = d'.id := by rw [hkey]
      have hdd : d = d' :=
        List.inj_on_of_nodup_map hnd hd hd' (by rw [← hdid, hid])
      subst hdd
      have hnbn : n' = bn := by
        have hbk := congrArg VarKey.block_number hkey
        rw [hbn] at hbk
        exact hbk.symm
      refine List.mem_filterMap.mpr ⟨d, hd, ?_⟩
      have hcond : pr.id = d.producer.id ∧
          bn ∈ feasibleBlocks time_blocks d := ⟨hprid, hnbn ▸ hn'⟩
      rw [if_pos hcond, hkey, hnbn]

/-- Witness for `producer_capacity_constraints` on a concrete model with
two deliveries sharing a producer and two blocks. -/
theorem producer_capacity_constraints_witness :
    (([⟨⟨['a'], 4, 120⟩, ⟨['p'], 1⟩⟩, ⟨⟨['b'], 2, 10⟩, ⟨['p'], 1⟩⟩] :
        List Delivery).map Delivery.id).Nodup ∧
    (producerConstraints
        [⟨⟨['a'], 4, 120⟩, ⟨['p'], 1⟩⟩, ⟨⟨['b'], 2, 10⟩, ⟨['p'], 1⟩⟩]
        [⟨0, 0, 15, 2⟩, ⟨1, 15, 30, 3⟩]).length =
      (producersOf
        [⟨⟨['a'], 4, 120⟩, ⟨['p'], 1⟩⟩, ⟨⟨['b'], 2, 10⟩, ⟨['p'], 1⟩⟩]).length * 2 :=
  ⟨by decide,
    (producer_capacity_constraints
      [⟨⟨['a'], 4, 120⟩, ⟨['p'], 1⟩⟩, ⟨⟨['b'], 2, 10⟩, ⟨['p'], 1⟩⟩]
      [⟨0, 0, 15, 2⟩, ⟨1, 15, 30, 3⟩] (by decide)).2.1⟩

/-- C1 counterexample: a consumer appearing in two deliveries (with
different producers).  Both (delivery, block) variables exist in the built
model, yet no constraint of the model carries both variables — in
particular there is no single equality constraint summing the variables of
all deliveries of that consumer: the loop creates one separate equality
constraint per delivery. -/
theorem consumer_single_constraint_counterexample :
    (((⟨(⟨⟨['c'], 5, 100⟩, ⟨['p'], 3⟩⟩ : Delivery).id, 0⟩ : VarKey) ∈
      (buildVariables
        [⟨⟨['c'], 5, 100⟩, ⟨['p'], 3⟩⟩, ⟨⟨['c'], 5, 100⟩, ⟨['q'], 3⟩⟩]
        [⟨0, 0, 10, 1⟩]).map LPVar.key) ∧
    ((⟨(⟨⟨['c'], 5, 100⟩, ⟨['q'], 3⟩⟩ : Delivery).id, 0⟩ : VarKey) ∈
      (buildVariables
        [⟨⟨['c'], 5, 100⟩, ⟨['p'], 3⟩⟩, ⟨⟨['c'], 5, 100⟩, ⟨['q'], 3⟩⟩]
        [⟨0, 0, 10, 1⟩]).map LPVar.key)) ∧
    (allConstraints
        [⟨⟨['c'], 5, 100⟩, ⟨['p'], 3⟩⟩, ⟨⟨['c'], 5, 100⟩, ⟨['q'], 3⟩⟩]
        [⟨0, 0, 10, 1⟩]).all
      (fun c =>
        !(c.terms.contains
            ⟨(⟨⟨['c'], 5, 100⟩, ⟨['p'], 3⟩⟩ : Delivery).id, 0⟩ &&
          c.terms.contains
            ⟨(⟨⟨['c'], 5, 100⟩, ⟨['q'], 3⟩⟩ : Delivery).id, 0⟩)) = true := by
  exact ⟨⟨by decide, by decide⟩, by decide⟩

/-- C1 (amended): the model contains exactly one equality constraint per
Delivery (not per Consumer): constraint `i` belongs to delivery `i`, has
lower bound and upper bound both equal to that delivery's consumer's
`required_units`, and its terms are exactly the decision variables whose
key carries that delivery's id.  A consumer appearing in several
deliveries therefore gets several separate equality constraints, one per
delivery, rather than a single combined one. -/
theorem consumer_equality_constraints (deliveries : List Delivery)
    (time_blocks : List TimeBlock)
    (hnd : (deliveries.map Delivery.id).Nodup) :
    (consumerConstraints deliveries time_blocks).length = deliveries.length ∧
    ∀ i, i < deliveries.length →
      ∃ d c, deliveries[i]? = some d ∧
        (consumerConstraints deliveries time_blocks)[i]? = some c ∧
        c.lb = d.consumer.required_units ∧
        c.ub = d.consumer.required_units ∧
        (∀ k : VarKey, k ∈ c.terms ↔
          (k.delivery_id = d.id ∧
            k ∈ (buildVariables deliveries time_blocks).map LPVar.key)) := by
  refine ⟨by simp [consumerConstraints], ?_⟩
  intro i hi
  refine ⟨deliveries[i],
    { lb := deliveries[i].consumer.required_units,
      ub := deliveries[i].consumer.required_units,
      terms := (feasibleBlocks time_blocks deliveries[i]).map
        (fun n => { delivery_id := deliveries[i].id, block_number := n }) },
    List.getElem?_eq_getElem hi, ?_, rfl, rfl, ?_⟩
  · rw [consumerConstraints, List.getElem?_map, List.getElem?_eq_getElem hi]
    rfl
  · intro k
    constructor
    · intro hk
      rcases List.mem_map.mp hk with ⟨n, hn, hkey⟩
      refine ⟨by rw [← hkey], ?_⟩
      exact (mem_varKeys deliveries time_blocks _).mpr
        ⟨deliveries[i], List.getElem_mem hi, n, hn, hkey.symm⟩
    · rintro ⟨hid, hvar⟩
      rcases (mem_varKeys deliveries time_blocks _).mp hvar with
        ⟨d', hd', n', hn', hkey⟩
      have hid' : k.delivery_id = d'.id := by rw [hkey]
      have hdd : deliveries[i] = d' :=
        List.inj_on_of_nodup_map hnd (List.getElem_mem hi) hd'
          (by rw [← hid, hid'])
      rw [← hdd] at hkey hn'
      exact List.mem_map.mpr ⟨n', hn', hkey.symm⟩

/-- Witness for `consumer_equality_constraints` on a concrete two-delivery
model. -/
theorem consumer_equality_constraints_witness :
    (([⟨⟨['a'], 4, 120⟩, ⟨['p'], 1⟩⟩, ⟨⟨['b'], 2, 10⟩, ⟨['q'], 3⟩⟩] :
        List Delivery).map Delivery.id).Nodup ∧
    (consumerConstraints
        [⟨⟨['a'], 4, 120⟩, ⟨['p'], 1⟩⟩, ⟨⟨['b'], 2, 10⟩, ⟨['q'], 3⟩⟩]
        [⟨0, 0, 15, 2⟩, ⟨1, 15, 30, 3⟩]).length =
      ([⟨⟨['a'], 4, 120⟩, ⟨['p'], 1⟩⟩, ⟨⟨['b'], 2, 10⟩, ⟨['q'], 3⟩⟩] :
        List Delivery).length :=
  ⟨by decide,
    (consumer_equality_constraints
      [⟨⟨['a'], 4, 120⟩, ⟨['p'], 1⟩⟩, ⟨⟨['b'], 2, 10⟩, ⟨['q'], 3⟩⟩]
      [⟨0, 0, 15, 2⟩, ⟨1, 15, 30, 3⟩] (by decide)).1⟩

/-- Ceiling alignment produces a multiple of the width. -/
theorem ceil_dt_dvd (t : Time) (m : Int) : m ∣ ceil_dt t m :=
  ⟨-((0 - t) / m), by rw [ceil_dt, Int.emod_def]; ring⟩

/-- Ceiling alignment never moves the instant backwards. -/
theorem ceil_dt_ge (t : Time) (m : Int) (hm : 0 < m) : t ≤ ceil_dt t m :=
  le_add_of_nonneg_right (Int.emod_nonneg _ (ne_of_gt hm))

/-- Ceiling alignment advances by less than one width. -/
theorem ceil_dt_lt (t : Time) (m : Int) (hm : 0 < m) : ceil_dt t m < t + m :=
  add_lt_add_left (Int.emod_lt_of_pos _ hm) t

/-- An instant already on a boundary is not advanced. -/
theorem ceil_dt_eq_self (t : Time) (m : Int) (hd : m ∣ t) :
    ceil_dt t m = t := by
  rw [ceil_dt]
  have h0 : (0 - t) % m = 0 := by
    apply Int.emod_eq_zero_of_dvd
    simpa using hd.neg_right
  rw [h0, add_zero]

/-- C4 counterexample: with `blocks_per_hour = 7` (which does not divide
60) and one hour from instant 0, the code produces 7 blocks of 8 minutes
covering 56 minutes — the blocks do not cover exactly the one-hour
horizon, whose end would be instant 60. -/
theorem period_to_blocks_horizon_counterexample :
    period_to_blocks 7 1 0 [] =
      .ok [⟨0, 0, 8, 0⟩, ⟨1, 8, 16, 0⟩, ⟨2, 16, 24, 0⟩, ⟨3, 24, 32, 0⟩,
           ⟨4, 32, 40, 0⟩, ⟨5, 40, 48, 0⟩, ⟨6, 48, 56, 0⟩] ∧
    ((56 : Int) ≠ 0 + 60 * 1) :=
  ⟨by rfl, by decide⟩

/-- C4 (amended): for positive `blocks_per_hour` and `hours` with
`blocks_per_hour` dividing 60, the partitioner returns exactly
`blocks_per_hour * hours` blocks numbered from 0, each of width
`60 / blocks_per_hour` minutes, contiguous and gap-free, whose first block
starts at the initial date rounded up to the next multiple of the width
(unchanged on a boundary), and which cover exactly the horizon; when
`blocks_per_hour` does not divide 60 the blocks still have width
`int(60 / blocks_per_hour)` but cover less than the horizon. -/
theorem period_to_blocks_partition (blocks_per_hour hours : Int)
    (initial_date : Time) (unit_prices : List UnitPrice)
    (hb : 0 < blocks_per_hour) (hh : 0 < hours)
    (hdvd : blocks_per_hour ∣ 60) :
    ∃ bs, period_to_blocks blocks_per_hour hours initial_date unit_prices =
        .ok bs ∧
      (bs.length : Int) = blocks_per_hour * hours ∧
      (∀ (i : Nat) (tb : TimeBlock), bs[i]? = some tb →
        tb.number = i ∧
        tb.date_from = ceil_dt initial_date (60 / blocks_per_hour) +
          (i : Int) * (60 / blocks_per_hour) ∧
        tb.date_until = tb.date_from + 60 / blocks_per_hour) ∧
      (∀ (i : Nat) (tb tb' : TimeBlock), bs[i]? = some tb →
        bs[i + 1]? = some tb' →
        tb.date_until = tb'.date_from) ∧
      (initial_date ≤ ceil_dt initial_date (60 / blocks_per_hour) ∧
        ceil_dt initial_date (60 / blocks_per_hour) <
          initial_date + 60 / blocks_per_hour ∧
        (60 / blocks_per_hour) ∣ ceil_dt initial_date (60 / blocks_per_hour) ∧
        ((60 / blocks_per_hour) ∣ initial_date →
          ceil_dt initial_date (60 / blocks_per_hour) = initial_date)) ∧
      (∀ (first last : TimeBlock), bs.head? = some first →
        bs.getLast? = some last →
        last.date_until = first.date_from + 60 * hours) := by
  have hm : 0 < 60 / blocks_per_hour := by
    have hle : blocks_per_hour ≤ 60 := Int.le_of_dvd (by norm_num) hdvd
    exact lt_of_lt_of_le Int.zero_lt_one
      ((Int.le_ediv_iff_mul_le hb).mpr (by omega))
  have htotal : ((blocks_per_hour * hours).toNat : Int) =
      blocks_per_hour * hours :=
    Int.toNat_of_nonneg (le_of_lt (mul_pos hb hh))
  have hnb : ¬ blocks_per_hour ≤ 0 := not_le.mpr hb
  have hnh : ¬ hours ≤ 0 := not_le.mpr hh
  rw [period_to_blocks, if_neg hnb, if_neg hnh]
  set m : Int := 60 / blocks_per_hour with hm_def
  set start := ceil_dt initial_date m with hstart
  set total := (blocks_per_hour * hours).toNat with htotal_def
  refine ⟨_, rfl, ?_, ?_, ?_, ?_, ?_⟩
  · simp [htotal]
  · intro i tb htb
    rw [List.getElem?_map] at htb
    by_cases hi : i < total
    · rw [List.getElem?_range hi] at htb
      have := Option.some.inj htb
      rw [← this]
      exact ⟨rfl, rfl, rfl⟩
    · rw [List.getElem?_eq_none (by simpa using not_lt.mp hi)] at htb
      cases htb
  · intro i tb tb' htb htb'
    rw [List.getElem?_map] at htb htb'
    by_cases hi : i + 1 < total
    · rw [List.getElem?_range (by omega)] at htb
      rw [List.getElem?_range hi] at htb'
      have h1 := Option.some.inj htb
      have h2 := Option.some.inj htb'
      rw [← h1, ← h2]
      push_cast
      ring
    · rw [List.getElem?_eq_none (by simpa using not_lt.mp hi)] at htb'
      cases htb'
  · exact ⟨ceil_dt_ge _ _ hm, ceil_dt_lt _ _ hm, ceil_dt_dvd _ _,
      fun h => ceil_dt_eq_self _ _ h⟩
  · intro first last hfirst hlast
    have hpos : 0 < total := by
      have : 0 < blocks_per_hour * hours := mul_pos hb hh
      omega
    rw [List.head?_eq_getElem?, List.getElem?_map,
      List.getElem?_range hpos] at hfirst
    rw [List.getLast?_eq_getElem?, List.length_map, List.length_range,
      List.getElem?_map, List.getElem?_range (by omega)] at hlast
    have h1 := Option.some.inj hfirst
    have h2 := Option.some.inj hlast
    rw [← h1, ← h2]
    dsimp only
    have hcancel : (total : Int) * m = 60 * hours := by
      rw [htotal_def, htotal, hm_def]
      rw [mul_comm blocks_per_hour hours, mul_assoc]
      rw [Int.mul_ediv_cancel' hdvd]
      ring
    have hcast : ((total - 1 : Nat) : Int) = (total : Int) - 1 := by
      omega
    rw [hcast]
    push_cast
    linear_combination hcancel

/-- Witness for `period_to_blocks_partition` at `blocks_per_hour = 4`,
`hours = 2`, unaligned initial instant 7. -/
theorem period_to_blocks_partition_witness :
    ((0 : Int) < 4 ∧ (0 : Int) < 2 ∧ (4 : Int) ∣ 60) ∧
    ∃ bs, period_to_blocks 4 2 7 [] = .ok bs ∧
      (bs.length : Int) = 4 * 2 ∧
      (∀ (i : Nat) (tb : TimeBlock), bs[i]? = some tb →
        tb.number = i ∧
        tb.date_from = ceil_dt 7 (60 / 4) + (i : Int) * (60 / 4) ∧
        tb.date_until = tb.date_from + 60 / 4) ∧
      (∀ (i : Nat) (tb tb' : TimeBlock), bs[i]? = some tb →
        bs[i + 1]? = some tb' →
        tb.date_until = tb'.date_from) ∧
      ((7 : Int) ≤ ceil_dt 7 (60 / 4) ∧
        ceil_dt 7 (60 / 4) < 7 + 60 / 4 ∧
        ((60 : Int) / 4) ∣ ceil_dt 7 (60 / 4) ∧
        (((60 : Int) / 4) ∣ 7 → ceil_dt 7 (60 / 4) = 7)) ∧
      (∀ (first last : TimeBlock), bs.head? = some first →
        bs.getLast? = some last →
        last.date_until = first.date_from + 60 * 2) :=
  ⟨⟨by decide, by decide, by decide⟩,
    period_to_blocks_partition 4 2 7 [] (by decide) (by decide) (by decide)⟩

/-- C8 counterexample: with two deliveries each allocated in block 0 and
block 1, the list returned to the caller is grouped by delivery —
block numbers `[0, 1, 0, 1]` — and is not ascending by block number; only
the printed report sorts it. -/
theorem schedule_output_order_counterexample :
    ((schedule_init .OPTIMAL
        [⟨⟨['a'], 2, 100⟩, ⟨['p'], 5⟩⟩, ⟨⟨['b'], 2, 100⟩, ⟨['p'], 5⟩⟩]
        [⟨0, 0, 10, 1⟩, ⟨1, 10, 20, 1⟩]
        (fun _ => 1)).deliveries.map DeliveryRecord.time_block =
      [0, 1, 0, 1]) ∧
    ¬ ([0, 1, 0, 1] : List Nat).Sorted (· ≤ ·) := by
  exact ⟨by rfl, by decide⟩

/-- Membership after stable insertion. -/
theorem mem_insertByBlock (r x : DeliveryRecord) (l : List DeliveryRecord) :
    x ∈ insertByBlock r l ↔ x = r ∨ x ∈ l := by
  induction l with
  | nil => simp [insertByBlock]
  | cons s rest ih =>
    by_cases hs : s.time_block ≤ r.time_block
    · rw [insertByBlock, if_pos hs]
      simp only [List.mem_cons, ih]
      tauto
    · rw [insertByBlock, if_neg hs]
      simp only [List.mem_cons]

/-- Stable insertion preserves sortedness by block number. -/
theorem pairwise_insertByBlock (r : DeliveryRecord) (l : List DeliveryRecord)
    (h : l.Pairwise (fun a b => a.time_block ≤ b.time_block)) :
    (insertByBlock r l).Pairwise (fun a b => a.time_block ≤ b.time_block) := by
  induction l with
  | nil => simp [insertByBlock]
  | cons s rest ih =>
    rcases List.pairwise_cons.mp h with ⟨hs_rest, hrest⟩
    by_cases hs : s.time_block ≤ r.time_block
    · rw [insertByBlock, if_pos hs]
      refine List.pairwise_cons.mpr ⟨?_, ih hrest⟩
      intro x hx
      rcases (mem_insertByBlock r x rest).mp hx with rfl | hx
      · exact hs
      · exact hs_rest x hx
    · rw [insertByBlock, if_neg hs]
      refine List.pairwise_cons.mpr ⟨?_, h⟩
      intro x hx
      rcases List.mem_cons.mp hx with rfl | hx
      · exact le_of_not_le hs
      · exact le_trans (le_of_not_le hs) (hs_rest x hx)

/-- Inserting into a sorted list places the record after every
already-present record with the same block number: the filter at any block
number gains the new record at the end (when it has that number) and is
otherwise unchanged. -/
theorem filter_insertByBlock (r : DeliveryRecord) (l : List DeliveryRecord)
    (hl : l.Pairwise (fun a b => a.time_block ≤ b.time_block)) (k : Nat) :
    (insertByBlock r l).filter (fun x => x.time_block == k) =
      l.filter (fun x => x.time_block == k) ++
        (if r.time_block == k then [r] else []) := by
  induction l with
  | nil =>
    by_cases hrk : r.time_block = k <;> simp [insertByBlock, hrk]
  | cons s rest ih =>
    rcases List.pairwise_cons.mp hl with ⟨hs_rest, hrest⟩
    by_cases hs : s.time_block ≤ r.time_block
    · rw [insertByBlock, if_pos hs]
      by_cases hsk : s.time_block = k
      · simp [List.filter_cons, hsk, ih hrest]
      · simp [List.filter_cons, hsk, ih hrest]
    · rw [insertByBlock, if_neg hs]
      by_cases hrk : r.time_block = k
      · have hnil : (s :: rest).filter (fun x => x.time_block == k) = [] := by
          apply List.filter_eq_nil_iff.mpr
          intro x hx
          have hsx : s.time_block ≤ x.time_block := by
            rcases List.mem_cons.mp hx with rfl | hx
            · exact le_rfl
            · exact hs_rest x hx
          simp only [beq_iff_eq]
          omega
        simp [List.filter_cons, hrk, hnil]
      · simp [List.filter_cons, hrk]

/-- C8 (amended): the ordering guarantee holds for the printed
presentation, not for the list returned to the caller: sorting the
returned records by block number with a stable sort — which is what
`Schedule.print` does — yields a list ascending by block number in which
records sharing a block keep their insertion order (the filter at each
block number is unchanged); the returned list itself is in insertion
order, grouped by delivery. -/
theorem print_order_sorted_and_stable (records : List DeliveryRecord) :
    (sortByBlock records).Pairwise
      (fun a b => a.time_block ≤ b.time_block) ∧
    ∀ k, (sortByBlock records).filter (fun r => r.time_block == k) =
      records.filter (fun r => r.time_block == k) := by
  have main : ∀ (rs acc : List DeliveryRecord),
      acc.Pairwise (fun a b => a.time_block ≤ b.time_block) →
      (rs.foldl (fun acc r => insertByBlock r acc) acc).Pairwise
        (fun a b => a.time_block ≤ b.time_block) ∧
      ∀ k, (rs.foldl (fun acc r => insertByBlock r acc) acc).filter
          (fun r => r.time_block == k) =
        acc.filter (fun r => r.time_block == k) ++
          rs.filter (fun r => r.time_block == k) := by
    intro rs
    induction rs with
    | nil => exact fun acc hacc => ⟨hacc, fun k => by simp⟩
    | cons r rest ih =>
      intro acc hacc
      rw [List.foldl_cons]
      rcases ih (insertByBlock r acc) (pairwise_insertByBlock r acc hacc)
        with ⟨hp, hf⟩
      refine ⟨hp, ?_⟩
      intro k
      rw [hf k, filter_insertByBlock r acc hacc k]
      by_cases hrk : r.time_block = k
      · simp [List.filter_cons, hrk]
      · simp [List.filter_cons, hrk]
  rcases main records [] (by simp) with ⟨hp, hf⟩
  exact ⟨hp, fun k => by simpa using hf k⟩

/-- A string starts with any of its own prefixes. -/
theorem startsWith_append_self (pat t : List Char) :
    startsWith pat (pat ++ t) = true := by
  induction pat with
  | nil => rfl
  | cons p ps ih => simp [startsWith, ih]

/-- The separator has no nontrivial self-overlap: shifting it into a
nonempty string that does not start with it can never produce a string
that starts with it. -/
theorem startsWith_sep_shift (c p : List Char) (hne : c ≠ [])
    (h : startsWith sepChars c = false) :
    startsWith sepChars (c ++ (sepChars ++ p)) = false := by
  match c with
  | [] => exact absurd rfl hne
  | [a] =>
    simp [startsWith, sepChars]
  | [a, b] =>
    simp [startsWith, sepChars]
  | [a, b, c3] =>
    simp [startsWith, sepChars]
  | a :: b :: c3 :: d :: rest =>
    simp only [startsWith, sepChars, List.cons_append] at h ⊢
    simpa using h

/-- Splitting recovers the two halves around the separator whenever the
prefix half does not itself contain the separator. -/
theorem splitAtSeq_round (c p : List Char)
    (h : hasSeq sepChars c = false) :
    splitAtSeq sepChars (c ++ (sepChars ++ p)) = some (c, p) := by
  induction c with
  | nil =>
    simp only [List.nil_append]
    have hs := startsWith_append_self sepChars p
    rw [show sepChars ++ p = ',' :: ([' ', 'p', '-'] ++ p) from rfl]
    rw [splitAtSeq, if_pos (by rw [← show sepChars ++ p = ',' :: ([' ', 'p', '-'] ++ p) from rfl]; exact hs)]
    simp [sepChars]
  | cons a t ih =>
    have hboth := Bool.or_eq_false_iff.mp (by simpa [hasSeq] using h)
    have hsw : startsWith sepChars (a :: t) = false := hboth.1
    have htail : hasSeq sepChars t = false := hboth.2
    have hnostr : startsWith sepChars ((a :: t) ++ (sepChars ++ p)) = false :=
      startsWith_sep_shift (a :: t) p (by simp) hsw
    rw [List.cons_append] at hnostr ⊢
    rw [splitAtSeq, if_neg (by simp [hnostr]), ih htail]
    rfl

/-- C10 counterexample: the id format `c-{consumer}, p-{producer}` is not
injective over arbitrary string ids: the pairs (`a, p-b`, `x`) and (`a`,
`b, p-x`) are distinct but get the same delivery id, so registering the
second delivery replaces the first in the id-keyed dict and the collection
keeps a single entry. -/
theorem delivery_id_collision_counterexample :
    (deliveryId ['a', ',', ' ', 'p', '-', 'b'] ['x'] =
      deliveryId ['a'] ['b', ',', ' ', 'p', '-', 'x']) ∧
    ((['a', ',', ' ', 'p', '-', 'b'], ['x']) ≠
      ((['a'], ['b', ',', ' ', 'p', '-', 'x']) : List Char × List Char)) ∧
    (with_delivery
        (with_delivery [] ⟨['a', ',', ' ', 'p', '-', 'b'], 4, 10⟩ ⟨['x'], 1⟩)
        ⟨['a'], 2, 10⟩ ⟨['b', ',', ' ', 'p', '-', 'x'], 1⟩).length = 1 := by
  exact ⟨by decide, by decide, by decide⟩

/-- C10 (amended): the delivery id is unique per (consumer id, producer
id) pair provided the consumer ids do not contain the separator sequence
`", p-"`; under that proviso distinct pairs give distinct ids and
registering a second delivery never replaces the first in the id-keyed
collection. -/
theorem delivery_id_unique_per_pair (co1 co2 : Consumer)
    (pr1 pr2 : Producer)
    (h1 : hasSeq sepChars co1.id = false)
    (h2 : hasSeq sepChars co2.id = false)
    (hne : (co1.id, pr1.id) ≠ (co2.id, pr2.id)) :
    (⟨co1, pr1⟩ : Delivery).id ≠ (⟨co2, pr2⟩ : Delivery).id ∧
    (with_delivery (with_delivery [] co1 pr1) co2 pr2).length = 2 := by
  have hid : (⟨co1, pr1⟩ : Delivery).id ≠ (⟨co2, pr2⟩ : Delivery).id := by
    intro heq
    have hdrop : co1.id ++ (sepChars ++ pr1.id) =
        co2.id ++ (sepChars ++ pr2.id) := by
      have h2drop := congrArg (List.drop 2) heq
      simpa [Delivery.id, deliveryId, List.append_assoc] using h2drop
    have hs1 := splitAtSeq_round co1.id pr1.id h1
    rw [hdrop, splitAtSeq_round co2.id pr2.id h2] at hs1
    have hpair := Option.some.inj hs1
    exact hne (by
      rw [Prod.mk.injEq]
      exact ⟨congrArg Prod.fst hpair.symm, congrArg Prod.snd hpair.symm⟩)
  refine ⟨hid, ?_⟩
  have hkey : ((⟨co1, pr1⟩ : Delivery).id ==
      (⟨co2, pr2⟩ : Delivery).id) = false := by
    simpa using hid
  simp [with_delivery, dictInsert, hkey]

/-- Witness for `delivery_id_unique_per_pair` at two concrete separator
free pairs. -/
theorem delivery_id_unique_per_pair_witness :
    (hasSeq sepChars (⟨['a'], 1, 5⟩ : Consumer).id = false ∧
      hasSeq sepChars (⟨['b'], 1, 5⟩ : Consumer).id = false ∧
      ((⟨['a'], 1, 5⟩ : Consumer).id, (⟨['x'], 1⟩ : Producer).id) ≠
        ((⟨['b'], 1, 5⟩ : Consumer).id, (⟨['x'], 1⟩ : Producer).id)) ∧
    ((⟨⟨['a'], 1, 5⟩, ⟨['x'], 1⟩⟩ : Delivery).id ≠
      (⟨⟨['b'], 1, 5⟩, ⟨['x'], 1⟩⟩ : Delivery).id ∧
    (with_delivery (with_delivery [] ⟨['a'], 1, 5⟩ ⟨['x'], 1⟩)
      ⟨['b'], 1, 5⟩ ⟨['x'], 1⟩).length = 2) :=
  ⟨⟨by decide, by decide, by decide⟩,
    delivery_id_unique_per_pair ⟨['a'], 1, 5⟩ ⟨['b'], 1, 5⟩ ⟨['x'], 1⟩
      ⟨['x'], 1⟩ (by decide) (by decide) (by decide)⟩

end ProducerConsumer
